import Mathlib

/-!
Verification of the Edinburgh Capitals SNL Discord bot engine (`bot.py`).

The source program is a single-file scraper that normalizes page text,
scans for lines mentioning "Capitals", classifies surrounding windows as
results or upcoming fixtures, and posts deduplicated notifications.

This development shallowly embeds the text-processing pipeline and the
orchestration/state logic of `bot.py` as executable Lean definitions
(text is `List Char`; machine I/O — HTTP fetch, Discord delivery, state
file reads — appears as explicit parameters and small data types), and
proves the specification claims about them.
-/

set_option maxHeartbeats 1000000

namespace CapsBot

/-- Whitespace class used by Python's `\s` (ASCII range) and `str.strip`:
space, tab, newline, carriage return, vertical tab, form feed. -/
def pySpace (c : Char) : Bool :=
  c == ' ' || c == '\t' || c == '\n' || c == '\r' || c == '\x0b' || c == '\x0c'

/-- Python word-character class `\w` (ASCII range), used for `\b` boundaries. -/
def isWordChar (c : Char) : Bool :=
  c.isAlpha || c.isDigit || c == '_'

/-- A regex `\b` position relative to an adjacent word character holds when the
character on the other side is absent or not a word character.  (All the
patterns in `bot.py` put `\b` next to a digit or letter of the pattern, so
this one-sided test is exactly the `\b` semantics there.) -/
def boundaryNonWord : Option Char → Bool
  | none => true
  | some c => !isWordChar c

/-- Helper for `collapseWS`: the Bool records whether the previously emitted
character came from a whitespace run (so further whitespace is absorbed). -/
def collapseAux : Bool → List Char → List Char
  | _, [] => []
  | prev, c :: cs =>
    if pySpace c then
      if prev then collapseAux true cs else ' ' :: collapseAux true cs
    else c :: collapseAux false cs

/-- `re.sub(r"\s+", " ", s)` from `bot.py` line 51: every maximal whitespace
run becomes a single space. -/
def collapseWS (l : List Char) : List Char := collapseAux false l

/-- `str.strip()`: drop leading and trailing whitespace. -/
def stripWS (l : List Char) : List Char :=
  (((l.dropWhile pySpace).reverse.dropWhile pySpace)).reverse

/-- `norm` from `bot.py` lines 50-51: `re.sub(r"\s+", " ", s).strip()`. -/
def norm (l : List Char) : List Char := stripWS (collapseWS l)

/-- Python `text.split("\n")`: split into lines at every newline, keeping
empty pieces. -/
def splitOnNL : List Char → List (List Char)
  | [] => [[]]
  | c :: cs =>
    if c = '\n' then [] :: splitOnNL cs
    else
      match splitOnNL cs with
      | [] => [[c]]
      | l :: ls => (c :: l) :: ls

/-- The TextNormalizer pipeline, `bot.py` lines 131 and 207:
`[norm(x) for x in text.split("\n") if x.strip()]`. -/
def normalizeLines (text : List Char) : List (List Char) :=
  ((splitOnNL text).filter (fun x => !(stripWS x).isEmpty)).map norm

/-- `true` iff the string has two adjacent whitespace characters. -/
def hasDoubleSpace : List Char → Bool
  | a :: b :: rest => (pySpace a && pySpace b) || hasDoubleSpace (b :: rest)
  | _ => false

/-- Python substring containment `needle in hay`. -/
def containsSub (needle : List Char) : List Char → Bool
  | [] => needle.isPrefixOf []
  | c :: cs => needle.isPrefixOf (c :: cs) || containsSub needle cs

/-- The anchor test of both scan loops, `bot.py` lines 135 and 213:
`if "Capitals" not in line: continue` — plain substring containment. -/
def capitalsName : List Char := "Capitals".data

def isAnchor (line : List Char) : Bool := containsSub capitalsName line

/-- Match `team` at the head of the text under character comparison `eqc`,
returning the rest of the text on success. -/
def eatToken (eqc : Char → Char → Bool) : List Char → List Char → Option (List Char)
  | [], rest => some rest
  | _ :: _, [] => none
  | t :: ts, c :: cs => if eqc t c then eatToken eqc ts cs else none

/-- Attempt of the regex `\b<team>\b` at one position (`prev` is the character
just before the position).  `bot.py`'s team names are purely alphabetic, so
both `\b`s reduce to "adjacent outside character absent or non-word". -/
def tokenAtBy (eqc : Char → Char → Bool) (team : List Char) (prev : Option Char)
    (hay : List Char) : Bool :=
  boundaryNonWord prev &&
    match eatToken eqc team hay with
    | some rest => boundaryNonWord rest.head?
    | none => false

/-- `re.search(rf"\b{team}\b", text, ...)`: scan every position left to right. -/
def tokenSearchBy (eqc : Char → Char → Bool) (team : List Char) :
    Option Char → List Char → Bool
  | prev, [] => tokenAtBy eqc team prev []
  | prev, c :: cs => tokenAtBy eqc team prev (c :: cs) || tokenSearchBy eqc team (some c) cs

/-- ASCII case-insensitive character equality (re.IGNORECASE on this input). -/
def icEq (a b : Char) : Bool := a.toLower == b.toLower

/-- `KNOWN_TEAMS`, `bot.py` lines 42-45, in declaration order. -/
def KNOWN_TEAMS : List (List Char) :=
  ["Capitals".data, "Warriors".data, "Rockets".data, "Pirates".data, "Tigers".data,
   "Kestrels".data, "Wild".data, "Thunder".data, "Lynx".data, "Sharks".data, "Stars".data]

/-- `find_teams_in_text`, `bot.py` lines 92-96: the teams whose name occurs as
a case-insensitive `\b`-delimited token, in declaration order. -/
def find_teams_in_text (text : List Char) : List (List Char) :=
  KNOWN_TEAMS.filter (fun team => tokenSearchBy icEq team none text)

/-- Modelled from the spec: the WindowScanner anchor rule as the spec words it
("case-sensitive exact token, not substring of another word") — the
case-sensitive `\b`-delimited token test, for comparison against the code's
substring-based `isAnchor`. -/
def specTokenAnchor (line : List Char) : Bool :=
  tokenSearchBy (fun a b => a == b) capitalsName none line

def isDigitChar (c : Char) : Bool := c.isDigit

/-- The two dash characters accepted by `SCORE_PATTERN` (`-` and `–`). -/
def isDashChar (c : Char) : Bool := c == '-' || c == '–'

/-- Continuation of `SCORE_PATTERN` after the first captured group:
`\s*[-–]\s*(\d{1,2})\b`, with the regex engine's greedy two-digit attempt and
one-digit backtrack for the second group. -/
def scoreTail (g1 : List Char) (rest : List Char) : Option (List Char × List Char) :=
  match rest.dropWhile pySpace with
  | d :: r2 =>
    if isDashChar d then
      match r2.dropWhile pySpace with
      | a :: r4 =>
        if isDigitChar a then
          (match r4 with
           | b :: r5 =>
             if isDigitChar b && boundaryNonWord r5.head? then some (g1, [a, b]) else none
           | [] => none) <|>
          (if boundaryNonWord r4.head? then some (g1, [a]) else none)
        else none
      | [] => none
    else none
  | [] => none

/-- One attempt of `SCORE_PATTERN` (`bot.py` line 38) at a position whose
`\b`-before side was already checked: `(\d{1,2})` greedy, then `scoreTail`;
on failure of the rest, backtrack the first group to one digit. -/
def matchScoreAt : List Char → Option (List Char × List Char)
  | a :: r1 =>
    if isDigitChar a then
      (match r1 with
       | b :: r2 => if isDigitChar b then scoreTail [a, b] r2 else none
       | [] => none) <|>
      scoreTail [a] r1
    else none
  | [] => none

/-- `SCORE_PATTERN.search`: leftmost match wins; `prev` carries the previous
character for the leading `\b`. -/
def scoreSearchAux : Option Char → List Char → Option (List Char × List Char)
  | _, [] => none
  | prev, c :: cs =>
    (if boundaryNonWord prev then matchScoreAt (c :: cs) else none) <|>
      scoreSearchAux (some c) cs

/-- `SCORE_PATTERN.search(window)` returning the two captured digit strings. -/
def scoreSearch (l : List Char) : Option (List Char × List Char) :=
  scoreSearchAux none l

/-- A MatchResultEvent as built per qualifying window, `bot.py` lines 143-157. -/
structure ResultEvent where
  opponent : List Char
  s1 : List Char
  s2 : List Char
  id : List Char
deriving DecidableEq

/-- `match_id = norm(f"{opponent}-{s1}-{s2}-{window[:80]}")`, `bot.py` line 156. -/
def mkResultId (opponent s1 s2 window : List Char) : List Char :=
  norm (opponent ++ '-' :: s1 ++ '-' :: s2 ++ '-' :: window.take 80)

/-- The per-window body of the results scan, `bot.py` lines 139-157: require a
score match; require "Capitals" among the found teams and at least two teams;
opponent is the first found team other than "Capitals"
(`next((t for t in teams_found if t != "Capitals"), None)`). -/
def extractResultWindow (window : List Char) : Option ResultEvent :=
  match scoreSearch window with
  | none => none
  | some (s1, s2) =>
    let teams := find_teams_in_text window
    if capitalsName ∈ teams ∧ 2 ≤ teams.length then
      match teams.find? (fun t => t != capitalsName) with
      | some opp => some ⟨opp, s1, s2, mkResultId opp s1 s2 window⟩
      | none => none
    else none

/-- A wall-clock datetime as produced by
`datetime.strptime(raw, "%d %b %Y %H:%M").replace(tzinfo=UK_TZ)`. -/
structure DT where
  year : Nat
  month : Nat
  day : Nat
  hour : Nat
  minute : Nat
deriving DecidableEq

/-- Wall-clock ordering key (lexicographic on year, month, day, hour, minute).
Python compares the tz-aware datetimes by UTC instant; for datetimes that all
carry the same Europe/London zone this agrees with wall-clock order except for
wall times inside the nonexistent spring-forward hour, which this embedding
does not model. -/
def dtKey (d : DT) : Nat :=
  (((d.year * 13 + d.month) * 32 + d.day) * 24 + d.hour) * 60 + d.minute

def monthAbbrevs : List (List Char × Nat) :=
  [("jan".data, 1), ("feb".data, 2), ("mar".data, 3), ("apr".data, 4),
   ("may".data, 5), ("jun".data, 6), ("jul".data, 7), ("aug".data, 8),
   ("sep".data, 9), ("oct".data, 10), ("nov".data, 11), ("dec".data, 12)]

/-- `%b` month lookup (Python strptime matches abbreviations case-insensitively). -/
def lookupMonth (s : List Char) : Option Nat :=
  (monthAbbrevs.find? (fun p => p.1 == s.map Char.toLower)).map (fun p => p.2)

def isLeapYear (y : Nat) : Bool :=
  y % 4 == 0 && (y % 100 != 0 || y % 400 == 0)

def daysInMonth (y m : Nat) : Nat :=
  if m == 2 then (if isLeapYear y then 29 else 28)
  else if m == 4 || m == 6 || m == 9 || m == 11 then 30
  else 31

def digitsToNat (l : List Char) : Nat :=
  l.foldl (fun n c => 10 * n + (c.toNat - 48)) 0

/-- `\s+`: require at least one whitespace character, consume the whole run. -/
def eatSpaces1 : List Char → Option (List Char)
  | c :: cs => if pySpace c then some (cs.dropWhile pySpace) else none
  | [] => none

def eatExactDigits : Nat → List Char → Option (List Char)
  | 0, l => some l
  | _ + 1, [] => none
  | n + 1, c :: cs => if isDigitChar c then eatExactDigits n cs else none

def eatExactAlpha : Nat → List Char → Option (List Char)
  | 0, l => some l
  | _ + 1, [] => none
  | n + 1, c :: cs => if c.isAlpha then eatExactAlpha n cs else none

/-- Continuation of `FIXTURE_DT_PATTERN` (`bot.py` line 39) after the day
digits: `\s+[A-Za-z]{3}\s+\d{4}\s+\d{2}:\d{2}\b`.  Returns the rest of the
text after the match. -/
def dtAfterDay (rest : List Char) : Option (List Char) := do
  let r1 ← eatSpaces1 rest
  let r2 ← eatExactAlpha 3 r1
  let r3 ← eatSpaces1 r2
  let r4 ← eatExactDigits 4 r3
  let r5 ← eatSpaces1 r4
  let r6 ← eatExactDigits 2 r5
  match r6 with
  | ':' :: r7 => do
    let r8 ← eatExactDigits 2 r7
    if boundaryNonWord r8.head? then some r8 else none
  | _ => none

/-- One attempt of `FIXTURE_DT_PATTERN` at a position whose `\b`-before side
was already checked: day digits greedy two then backtrack to one. -/
def matchDTAt : List Char → Option (List Char)
  | a :: r1 =>
    if isDigitChar a then
      (match r1 with
       | b :: r2 => if isDigitChar b then dtAfterDay r2 else none
       | [] => none) <|>
      dtAfterDay r1
    else none
  | [] => none

/-- `FIXTURE_DT_PATTERN.finditer`: non-overlapping matches left to right,
resuming after each match.  The `Nat` fuel starts at the text length; every
step consumes at least one character, so the fuel never runs out before the
text does. -/
def finditerDTAux : Nat → Option Char → List Char → List (List Char)
  | 0, _, _ => []
  | _ + 1, _, [] => []
  | n + 1, prev, c :: cs =>
    match (if boundaryNonWord prev then matchDTAt (c :: cs) else none) with
    | some rest =>
      let tok := (c :: cs).take ((c :: cs).length - rest.length)
      tok :: finditerDTAux n tok.getLast? rest
    | none => finditerDTAux n (some c) cs

/-- `datetime.strptime(raw, "%d %b %Y %H:%M")` on one matched token: parse the
fields and validate them as the `datetime` constructor does; malformed
calendar values yield `none` (the token is skipped). -/
def parseDTToken (tok : List Char) : Option DT :=
  let dayDigits := tok.takeWhile isDigitChar
  let r1 := (tok.dropWhile isDigitChar).dropWhile pySpace
  let monName := r1.takeWhile Char.isAlpha
  let r2 := (r1.dropWhile Char.isAlpha).dropWhile pySpace
  let yearDigits := r2.takeWhile isDigitChar
  let r3 := (r2.dropWhile isDigitChar).dropWhile pySpace
  let hourDigits := r3.takeWhile isDigitChar
  let r4 := r3.dropWhile isDigitChar
  match r4 with
  | ':' :: r5 =>
    let minDigits := r5.takeWhile isDigitChar
    match lookupMonth monName with
    | some m =>
      let d := digitsToNat dayDigits
      let y := digitsToNat yearDigits
      let hh := digitsToNat hourDigits
      let mm := digitsToNat minDigits
      if 1 ≤ d ∧ d ≤ daysInMonth y m ∧ 1 ≤ y ∧ hh ≤ 23 ∧ mm ≤ 59 then
        some ⟨y, m, d, hh, mm⟩
      else none
    | none => none
  | _ => none

/-- `parse_fixture_datetimes`, `bot.py` lines 99-112: every pattern match,
parsed, with unparsable tokens silently skipped. -/
def parse_fixture_datetimes (text : List Char) : List DT :=
  (finditerDTAux text.length none text).filterMap parseDTToken

/-- The per-window body of the upcoming-game scan, `bot.py` lines 218-239:
skip windows with a scoreline; require a parsed datetime; require a strictly
future one (`isFuture` stands for the comparison against `datetime.now`);
require the team gate as in the results scan; candidate kickoff is the
earliest future datetime (`sorted(future_dts)[0]`). -/
def fixtureWindowCandidate (isFuture : DT → Bool) (window : List Char) :
    Option (DT × List Char) :=
  if (scoreSearch window).isSome then none
  else
    let dts := parse_fixture_datetimes window
    if dts.isEmpty then none
    else
      let future_dts := dts.filter isFuture
      match future_dts with
      | [] => none
      | f :: fs =>
        let teams := find_teams_in_text window
        if capitalsName ∈ teams ∧ 2 ≤ teams.length then
          match teams.find? (fun t => t != capitalsName) with
          | some opp =>
            some (fs.foldl (fun best x => if dtKey x < dtKey best then x else best) f, opp)
          | none => none
        else none

/-- `" ".join(lines[max(0, i - before) : min(len(lines), i + after)])`
(Nat subtraction clamps at zero and `take` clamps at the length, exactly as
the Python slice does). -/
def windowAround (lines : List (List Char)) (i before after : Nat) : List Char :=
  List.intercalate [' '] ((lines.drop (i - before)).take ((i + after) - (i - before)))

def upcomingMarker : List Char := "Upcoming Games".data

/-- `text.split(marker, 1)[1]`: everything after the first occurrence of the
marker (only called when the marker is present). -/
def afterMarker (marker : List Char) : List Char → List Char
  | [] => []
  | c :: cs =>
    if marker.isPrefixOf (c :: cs) then (c :: cs).drop marker.length
    else afterMarker marker cs

/-- `bot.py` lines 203-206: focus after "Upcoming Games" when present, then
truncate to the first 10000 characters. -/
def pregameText (raw : List Char) : List Char :=
  (if containsSub upcomingMarker raw then afterMarker upcomingMarker raw else raw).take 10000

/-- The scan loop of `scrape_next_capitals_game` over the already-truncated
text, `bot.py` lines 207-245: anchor lines, window of 8 before / 20 after,
per-window candidate, earliest candidate wins (`sorted(candidates)[0]`,
stable, so the leftmost earliest). -/
def nextGameFromText (isFuture : DT → Bool) (text : List Char) : Option (DT × List Char) :=
  let lines := normalizeLines text
  let candidates := lines.enum.filterMap (fun p =>
    if isAnchor p.2 then fixtureWindowCandidate isFuture (windowAround lines p.1 8 20)
    else none)
  match candidates with
  | [] => none
  | c :: cs =>
    some (cs.foldl (fun best x => if dtKey x.1 < dtKey best.1 then x else best) c)

/-- `scrape_next_capitals_game`, `bot.py` lines 186-245, from the fetched page
text (the HTTP fetch itself is external). -/
def scrape_next_capitals_game (isFuture : DT → Bool) (raw : List Char) :
    Option (DT × List Char) :=
  nextGameFromText isFuture (pregameText raw)

/-- The persisted state document `posted.json`: `"posted"` and `"pregame"` id
lists.  (`bot.py` turns them into Python sets and saves them sorted; only
membership matters, which list membership models.) -/
structure PState where
  posted : List (List Char)
  pregame : List (List Char)
deriving DecidableEq

/-- What reading the state file can yield: no file, an unreadable/corrupt
file, or a decoded document in which either key may be missing. -/
inductive StateFileRead where
  | absent
  | unreadable
  | loaded (posted? : Option (List (List Char))) (pregame? : Option (List (List Char)))

/-- `load_state`, `bot.py` lines 64-79: a missing file and a decode error both
yield the fresh empty state; a decoded document gets missing keys filled with
`[]`. -/
def load_state : StateFileRead → PState
  | StateFileRead.absent => ⟨[], []⟩
  | StateFileRead.unreadable => ⟨[], []⟩
  | StateFileRead.loaded p g => ⟨p.getD [], g.getD []⟩

/-- One detected result as queued for posting (id and rendered message). -/
structure RItem where
  id : List Char
  message : List Char
deriving DecidableEq

/-- The posting loop of `scrape_capitals_results`, `bot.py` lines 170-179:
for each result not already posted, call `post_to_discord` (modelled by
`deliver`; `false` means the request raised), then add the id.  A raise
aborts the whole function before `save_state` runs, which `Except.error`
records; on normal completion the accumulated id list is saved.  The first
component collects the messages actually delivered. -/
def runResultsLoop (deliver : List Char → Bool) :
    List RItem → List (List Char) → List (List Char) × Except Unit (List (List Char))
  | [], posted => ([], Except.ok posted)
  | r :: rest, posted =>
    if r.id ∈ posted then runResultsLoop deliver rest posted
    else if deliver r.message then
      let out := runResultsLoop deliver rest (r.id :: posted)
      (r.message :: out.1, out.2)
    else ([], Except.error ())

/-- The `"posted"` ids on disk after the results pass: on normal completion
the saved list, on a raise the untouched previous file contents. -/
def persistedPosted (old : List (List Char)) :
    Except Unit (List (List Char)) → List (List Char)
  | Except.ok p => p
  | Except.error _ => old

def PREGAME_WINDOW_HOURS : Int := 24

/-- `pre_id = f"{fixture_dt.isoformat()}|{opponent}"`, `bot.py` line 265, with
the kickoff instant abstracted to epoch seconds (`isoformat` is an injective
rendering of the instant, modelled by `toString`). -/
def preId (dt : Int) (opp : List Char) : List Char :=
  (toString dt).data ++ '|' :: opp

/-- One invocation of the pregame pass as seen by `run_pregame`: the scrape
outcome (kickoff instant in epoch seconds and opponent), the current time,
and whether the Discord post would succeed. -/
structure PreStep where
  nxt : Option (Int × List Char)
  now : Int
  deliverOk : Bool

/-- `run_pregame`, `bot.py` lines 248-280: nothing detected → return;
`hours_to > PREGAME_WINDOW_HOURS` → return (with `hours_to` in hours, i.e.
`dt - now > 24 * 3600` in seconds); id already posted → return; otherwise
post (a raise leaves the state untouched) and record the id.  Returns
whether a notification was posted together with the resulting state. -/
def runPregameStep (s : PreStep) (st : PState) : Bool × PState :=
  match s.nxt with
  | none => (false, st)
  | some (dt, opp) =>
    if PREGAME_WINDOW_HOURS * 3600 < dt - s.now then (false, st)
    else
      let pid := preId dt opp
      if pid ∈ st.pregame then (false, st)
      else if s.deliverOk then (true, { st with pregame := pid :: st.pregame })
      else (false, st)

/-- Whether this invocation posts a pregame notification for the fixture with
id `pid`. -/
def stepFires (pid : List Char) (s : PreStep) (st : PState) : Bool :=
  (runPregameStep s st).1 && (s.nxt.map (fun p => preId p.1 p.2) == some pid)

/-- Number of pregame notifications posted for the fixture with id `pid`
across a sequence of invocations threading the persisted state. -/
def countFires (pid : List Char) : List PreStep → PState → Nat
  | [], _ => 0
  | s :: rest, st =>
    (if stepFires pid s st then 1 else 0) + countFires pid rest (runPregameStep s st).2

/-- The three detection passes the spec names. -/
inductive PassKind where
  | results
  | pregame
  | scoreboard
deriving DecidableEq

/-- The entry point, `bot.py` lines 286-290: it calls
`scrape_capitals_results()` then `run_pregame()`, and nothing else. -/
def mainPasses : List PassKind := [PassKind.results, PassKind.pregame]

/-! ### Helper lemmas: whitespace normalization -/

theorem hasDoubleSpace_tail {a : Char} {l : List Char}
    (h : hasDoubleSpace (a :: l) = false) : hasDoubleSpace l = false := by
  cases l with
  | nil => rfl
  | cons b t =>
    have h' : ((pySpace a && pySpace b) || hasDoubleSpace (b :: t)) = false := h
    exact (Bool.or_eq_false_iff.mp h').2

theorem hasDoubleSpace_append_right :
    ∀ (xs ys : List Char), hasDoubleSpace (xs ++ ys) = false → hasDoubleSpace ys = false := by
  intro xs
  induction xs with
  | nil => intro ys h; exact h
  | cons a t ih => intro ys h; exact ih ys (hasDoubleSpace_tail h)

theorem hasDoubleSpace_append_left :
    ∀ (xs ys : List Char), hasDoubleSpace (xs ++ ys) = false → hasDoubleSpace xs = false := by
  intro xs
  induction xs with
  | nil => intro ys _; rfl
  | cons a t ih =>
    intro ys h
    cases t with
    | nil => rfl
    | cons b t' =>
      have h' : ((pySpace a && pySpace b) || hasDoubleSpace ((b :: t') ++ ys)) = false := h
      have h1 := Bool.or_eq_false_iff.mp h'
      have h2 := ih ys h1.2
      show ((pySpace a && pySpace b) || hasDoubleSpace (b :: t')) = false
      exact Bool.or_eq_false_iff.mpr ⟨h1.1, h2⟩

theorem collapseAux_true_head :
    ∀ (cs : List Char) (c : Char), (collapseAux true cs).head? = some c → pySpace c = false := by
  intro cs
  induction cs with
  | nil => intro c h; simp [collapseAux] at h
  | cons a t ih =>
    intro c h
    by_cases ha : pySpace a = true
    · rw [show collapseAux true (a :: t) = collapseAux true t by simp [collapseAux, ha]] at h
      exact ih c h
    · rw [show collapseAux true (a :: t) = a :: collapseAux false t by
        simp [collapseAux, Bool.eq_false_iff.mpr ha]] at h
      simp at h
      rw [← h]
      exact Bool.eq_false_iff.mpr ha

theorem hasDoubleSpace_collapseAux :
    ∀ (l : List Char) (b : Bool), hasDoubleSpace (collapseAux b l) = false := by
  intro l
  induction l with
  | nil => intro b; rfl
  | cons a t ih =>
    intro b
    by_cases ha : pySpace a = true
    · cases b with
      | true =>
        rw [show collapseAux true (a :: t) = collapseAux true t by simp [collapseAux, ha]]
        exact ih true
      | false =>
        rw [show collapseAux false (a :: t) = ' ' :: collapseAux true t by
          simp [collapseAux, ha]]
        cases hx : collapseAux true t with
        | nil => rfl
        | cons x xs =>
          have hxns : pySpace x = false := collapseAux_true_head t x (by rw [hx]; rfl)
          show ((pySpace ' ' && pySpace x) || hasDoubleSpace (x :: xs)) = false
          rw [hxns, ← hx]
          simp [ih true]
    · have ha' : pySpace a = false := Bool.eq_false_iff.mpr ha
      rw [show collapseAux b (a :: t) = a :: collapseAux false t by simp [collapseAux, ha']]
      cases hx : collapseAux false t with
      | nil => rfl
      | cons x xs =>
        show ((pySpace a && pySpace x) || hasDoubleSpace (x :: xs)) = false
        rw [ha', ← hx]
        simp [ih false]

theorem collapseAux_filter_nonspace :
    ∀ (l : List Char) (b : Bool),
      (collapseAux b l).filter (fun c => !pySpace c) = l.filter (fun c => !pySpace c) := by
  intro l
  induction l with
  | nil => intro b; rfl
  | cons a t ih =>
    intro b
    by_cases ha : pySpace a = true
    · cases b with
      | true =>
        rw [show collapseAux true (a :: t) = collapseAux true t by simp [collapseAux, ha]]
        rw [ih true, List.filter_cons, ha]
        simp
      | false =>
        rw [show collapseAux false (a :: t) = ' ' :: collapseAux true t by
          simp [collapseAux, ha]]
        have hsp : pySpace ' ' = true := rfl
        simp [List.filter_cons, hsp, ha, ih true]
    · have ha' : pySpace a = false := Bool.eq_false_iff.mpr ha
      rw [show collapseAux b (a :: t) = a :: collapseAux false t by simp [collapseAux, ha']]
      rw [List.filter_cons, List.filter_cons, ha', ih false]

theorem head?_dropWhile_not {α : Type} (p : α → Bool) :
    ∀ (l : List α) (c : α), (l.dropWhile p).head? = some c → p c = false := by
  intro l
  induction l with
  | nil => intro c h; simp [List.dropWhile] at h
  | cons a t ih =>
    intro c h
    by_cases ha : p a = true
    · rw [List.dropWhile_cons_of_pos ha] at h
      exact ih c h
    · rw [List.dropWhile_cons_of_neg ha] at h
      simp at h
      rw [← h]
      exact Bool.eq_false_iff.mpr ha

theorem stripWS_decomp (l : List Char) :
    l.dropWhile pySpace
      = stripWS l ++ ((l.dropWhile pySpace).reverse.takeWhile pySpace).reverse := by
  conv_lhs => rw [← List.reverse_reverse (l.dropWhile pySpace),
    ← List.takeWhile_append_dropWhile pySpace (l.dropWhile pySpace).reverse,
    List.reverse_append]
  rfl

theorem stripWS_eq_nil_iff (l : List Char) :
    stripWS l = [] ↔ ∀ c ∈ l, pySpace c = true := by
  constructor
  · intro h c hc
    have hd := stripWS_decomp l
    rw [h, List.nil_append] at hd
    have hsplit : c ∈ l.takeWhile pySpace ++ l.dropWhile pySpace := by
      rw [List.takeWhile_append_dropWhile pySpace l]; exact hc
    rcases List.mem_append.mp hsplit with h1 | h2
    · exact List.mem_takeWhile_imp h1
    · rw [hd] at h2
      exact List.mem_takeWhile_imp (List.mem_reverse.mp h2)
  · intro h
    have hd : l.dropWhile pySpace = [] := List.dropWhile_eq_nil_iff.mpr h
    simp [stripWS, hd]

theorem norm_eq_nil_iff (l : List Char) : norm l = [] ↔ stripWS l = [] := by
  rw [stripWS_eq_nil_iff]
  show stripWS (collapseWS l) = [] ↔ _
  rw [stripWS_eq_nil_iff]
  have hfe := collapseAux_filter_nonspace l false
  constructor
  · intro h c hc
    by_cases hcp : pySpace c = true
    · exact hcp
    · exfalso
      have hmem : c ∈ (collapseWS l).filter (fun c => !pySpace c) := by
        show c ∈ (collapseAux false l).filter (fun c => !pySpace c)
        rw [hfe]
        exact List.mem_filter.mpr ⟨hc, by simp [hcp]⟩
      have := h c (List.mem_filter.mp hmem).1
      exact hcp this
  · intro h c hc
    by_cases hcp : pySpace c = true
    · exact hcp
    · exfalso
      have hmem : c ∈ l.filter (fun c => !pySpace c) := by
        rw [← hfe]
        exact List.mem_filter.mpr ⟨hc, by simp [hcp]⟩
      have := h c (List.mem_filter.mp hmem).1
      exact hcp this

theorem hasDoubleSpace_norm (l : List Char) : hasDoubleSpace (norm l) = false := by
  have h1 : hasDoubleSpace (collapseWS l) = false := hasDoubleSpace_collapseAux l false
  have h2 : hasDoubleSpace ((collapseWS l).dropWhile pySpace) = false := by
    have := List.takeWhile_append_dropWhile pySpace (collapseWS l)
    exact hasDoubleSpace_append_right _ _ (by rw [this]; exact h1)
  have hd := stripWS_decomp (collapseWS l)
  show hasDoubleSpace (stripWS (collapseWS l)) = false
  exact hasDoubleSpace_append_left _ _ (by rw [← hd]; exact h2)

theorem norm_head_nonspace (l : List Char) (c : Char) :
    (norm l).head? = some c → pySpace c = false := by
  intro h
  have h' : (stripWS (collapseWS l)).head? = some c := h
  apply head?_dropWhile_not pySpace (collapseWS l) c
  rw [stripWS_decomp (collapseWS l)]
  cases hs : stripWS (collapseWS l) with
  | nil => rw [hs] at h'; simp at h'
  | cons x xs =>
    rw [hs] at h'
    simp at h'
    simp [h']

theorem norm_getLast_nonspace (l : List Char) (c : Char) :
    (norm l).getLast? = some c → pySpace c = false := by
  intro h
  have hg : (norm l).getLast?
      = (((collapseWS l).dropWhile pySpace).reverse.dropWhile pySpace).head? := by
    show (stripWS (collapseWS l)).getLast? = _
    rw [stripWS, List.getLast?_reverse]
  rw [hg] at h
  exact head?_dropWhile_not pySpace _ c h

/-! ### Helper lemmas: find? over filter, substring characterization -/

theorem find?_filter_eq_head? {α : Type} (p q : α → Bool) :
    ∀ l : List α, (l.filter p).find? q = (l.filter (fun x => q x && p x)).head? := by
  intro l
  induction l with
  | nil => rfl
  | cons a t ih =>
    by_cases hp : p a = true
    · by_cases hq : q a = true
      · simp [List.filter_cons, hp, hq, List.find?]
      · have hq' : q a = false := Bool.eq_false_iff.mpr hq
        simp [List.filter_cons, hp, hq', List.find?, ih]
    · have hp' : p a = false := Bool.eq_false_iff.mpr hp
      simp [List.filter_cons, hp', ih]

theorem isPrefixOf_eq_true_iff :
    ∀ (n h : List Char), n.isPrefixOf h = true ↔ ∃ t, n ++ t = h := by
  intro n
  induction n with
  | nil => intro h; simp [List.isPrefixOf]
  | cons a s ih =>
    intro h
    cases h with
    | nil => simp [List.isPrefixOf]
    | cons b t =>
      constructor
      · intro hpre
        have hab : a = b := by
          by_contra hne
          simp [List.isPrefixOf, hne] at hpre
        have hst : s.isPrefixOf t = true := by
          simpa [List.isPrefixOf, hab] using hpre
        rcases (ih t).mp hst with ⟨u, hu⟩
        exact ⟨u, by rw [hab, List.cons_append, hu]⟩
      · rintro ⟨u, hu⟩
        have hab : a = b := by
          have := congrArg List.head? hu
          simpa using this
        have ht : s ++ u = t := by
          have := congrArg List.tail hu
          simpa using this
        have hbt : (b == b) = true := by simp
        rw [show (a :: s).isPrefixOf (b :: t) = (a == b && s.isPrefixOf t) from rfl,
          hab, hbt, Bool.true_and]
        exact (ih t).mpr ⟨u, ht⟩

theorem containsSub_iff :
    ∀ (hay n : List Char), containsSub n hay = true ↔ ∃ l r, hay = l ++ n ++ r := by
  intro hay
  induction hay with
  | nil =>
    intro n
    rw [show containsSub n [] = n.isPrefixOf [] from rfl]
    rw [isPrefixOf_eq_true_iff]
    constructor
    · rintro ⟨t, ht⟩
      exact ⟨[], t, by simp [ht.symm]⟩
    · rintro ⟨l, r, hlr⟩
      have hl : l = [] := by
        cases l with
        | nil => rfl
        | cons x xs => simp at hlr
      rw [hl] at hlr
      simp at hlr
      exact ⟨r, by simp [hlr.1, hlr.2]⟩
  | cons c cs ih =>
    intro n
    rw [show containsSub n (c :: cs) = (n.isPrefixOf (c :: cs) || containsSub n cs) from rfl]
    constructor
    · intro h
      rcases Bool.or_eq_true_iff.mp h with h1 | h2
      · rcases (isPrefixOf_eq_true_iff n (c :: cs)).mp h1 with ⟨t, ht⟩
        exact ⟨[], t, by simp [ht.symm]⟩
      · rcases (ih n).mp h2 with ⟨l, r, hlr⟩
        exact ⟨c :: l, r, by simp [hlr]⟩
    · rintro ⟨l, r, hlr⟩
      apply Bool.or_eq_true_iff.mpr
      cases l with
      | nil =>
        left
        apply (isPrefixOf_eq_true_iff n (c :: cs)).mpr
        exact ⟨r, by simpa using hlr.symm⟩
      | cons x xs =>
        right
        apply (ih n).mpr
        refine ⟨xs, r, ?_⟩
        have := congrArg List.tail hlr
        simpa using this

theorem containsSub_append_of (n h e : List Char)
    (hc : containsSub n h = true) : containsSub n (h ++ e) = true := by
  rcases (containsSub_iff h n).mp hc with ⟨l, r, hlr⟩
  exact (containsSub_iff (h ++ e) n).mpr ⟨l, r ++ e, by simp [hlr]⟩

/-! ### Helper lemmas: results posting loop -/

theorem runResultsLoop_ok_mem (deliver : List Char → Bool) :
    ∀ (rs : List RItem) (posted p : List (List Char)) (i : List Char),
      (runResultsLoop deliver rs posted).2 = Except.ok p → i ∈ p →
      i ∈ posted ∨ ∃ r ∈ rs, r.id = i ∧ deliver r.message = true := by
  intro rs
  induction rs with
  | nil =>
    intro posted p i hok hip
    have : posted = p := by
      simpa [runResultsLoop] using hok
    rw [this]
    exact Or.inl hip
  | cons r rest ih =>
    intro posted p i hok hip
    by_cases hr : r.id ∈ posted
    · rw [show (runResultsLoop deliver (r :: rest) posted).2
          = (runResultsLoop deliver rest posted).2 by simp [runResultsLoop, hr]] at hok
      rcases ih posted p i hok hip with h1 | ⟨r', hr', hid⟩
      · exact Or.inl h1
      · exact Or.inr ⟨r', List.mem_cons_of_mem _ hr', hid⟩
    · by_cases hd : deliver r.message = true
      · rw [show (runResultsLoop deliver (r :: rest) posted).2
            = (runResultsLoop deliver rest (r.id :: posted)).2 by
            simp [runResultsLoop, hr, hd]] at hok
        rcases ih (r.id :: posted) p i hok hip with h1 | ⟨r', hr', hid⟩
        · rcases List.mem_cons.mp h1 with h2 | h2
          · exact Or.inr ⟨r, List.mem_cons_self r rest, h2.symm, hd⟩
          · exact Or.inl h2
        · exact Or.inr ⟨r', List.mem_cons_of_mem _ hr', hid⟩
      · have hd' : deliver r.message = false := Bool.eq_false_iff.mpr hd
        rw [show (runResultsLoop deliver (r :: rest) posted).2 = Except.error () by
          simp [runResultsLoop, hr, hd']] at hok
        exact absurd hok (by simp)

theorem runResultsLoop_error_of_failing (deliver : List Char → Bool) :
    ∀ (rs : List RItem) (posted : List (List Char)) (r : RItem),
      (rs.map RItem.id).Nodup → r ∈ rs → deliver r.message = false → r.id ∉ posted →
      (runResultsLoop deliver rs posted).2 = Except.error () := by
  intro rs
  induction rs with
  | nil => intro posted r _ hr; exact absurd hr (List.not_mem_nil r)
  | cons a rest ih =>
    intro posted r hnd hr hfail hnp
    have hnd' : (rest.map RItem.id).Nodup := (List.nodup_cons.mp hnd).2
    rcases List.mem_cons.mp hr with heq | hmem
    · subst heq
      by_cases ha : r.id ∈ posted
      · exact absurd ha hnp
      · have hd' : deliver r.message = false := hfail
        simp [runResultsLoop, ha, hd']
    · by_cases ha : a.id ∈ posted
      · rw [show (runResultsLoop deliver (a :: rest) posted).2
            = (runResultsLoop deliver rest posted).2 by simp [runResultsLoop, ha]]
        exact ih posted r hnd' hmem hfail hnp
      · by_cases hd : deliver a.message = true
        · rw [show (runResultsLoop deliver (a :: rest) posted).2
              = (runResultsLoop deliver rest (a.id :: posted)).2 by
              simp [runResultsLoop, ha, hd]]
          apply ih (a.id :: posted) r hnd' hmem hfail
          intro hin
          rcases List.mem_cons.mp hin with h1 | h2
          · have : a.id ∈ rest.map RItem.id := h1 ▸ List.mem_map_of_mem RItem.id hmem
            exact (List.nodup_cons.mp hnd).1 this
          · exact hnp h2
        · have hd' : deliver a.message = false := Bool.eq_false_iff.mpr hd
          simp [runResultsLoop, ha, hd']

theorem runResultsLoop_allok_delivers (d : List Char → Bool) (hall : ∀ m, d m = true) :
    ∀ (rs : List RItem) (posted : List (List Char)) (r : RItem),
      (rs.map RItem.id).Nodup → r ∈ rs → r.id ∉ posted →
      r.message ∈ (runResultsLoop d rs posted).1 := by
  intro rs
  induction rs with
  | nil => intro posted r _ hr; exact absurd hr (List.not_mem_nil r)
  | cons a rest ih =>
    intro posted r hnd hr hnp
    have hnd' : (rest.map RItem.id).Nodup := (List.nodup_cons.mp hnd).2
    rcases List.mem_cons.mp hr with heq | hmem
    · subst heq
      rw [show runResultsLoop d (r :: rest) posted
          = (r.message :: (runResultsLoop d rest (r.id :: posted)).1,
             (runResultsLoop d rest (r.id :: posted)).2) by
          simp [runResultsLoop, hnp, hall r.message]]
      exact List.mem_cons_self _ _
    · by_cases ha : a.id ∈ posted
      · rw [show runResultsLoop d (a :: rest) posted = runResultsLoop d rest posted by
          simp [runResultsLoop, ha]]
        exact ih posted r hnd' hmem hnp
      · rw [show runResultsLoop d (a :: rest) posted
            = (a.message :: (runResultsLoop d rest (a.id :: posted)).1,
               (runResultsLoop d rest (a.id :: posted)).2) by
            simp [runResultsLoop, ha, hall a.message]]
        apply List.mem_cons_of_mem
        apply ih (a.id :: posted) r hnd' hmem
        intro hin
        rcases List.mem_cons.mp hin with h1 | h2
        · have : a.id ∈ rest.map RItem.id := h1 ▸ List.mem_map_of_mem RItem.id hmem
          exact (List.nodup_cons.mp hnd).1 this
        · exact hnp h2

theorem runResultsLoop_msgs_subset (d : List Char → Bool) :
    ∀ (rs : List RItem) (posted : List (List Char)) (m : List Char),
      m ∈ (runResultsLoop d rs posted).1 →
      m ∈ (runResultsLoop (fun _ => true) rs posted).1 := by
  intro rs
  induction rs with
  | nil => intro posted m hm; simp [runResultsLoop] at hm
  | cons a rest ih =>
    intro posted m hm
    by_cases ha : a.id ∈ posted
    · rw [show runResultsLoop d (a :: rest) posted = runResultsLoop d rest posted by
        simp [runResultsLoop, ha]] at hm
      rw [show runResultsLoop (fun _ => true) (a :: rest) posted
          = runResultsLoop (fun _ => true) rest posted by simp [runResultsLoop, ha]]
      exact ih posted m hm
    · rw [show runResultsLoop (fun _ => true) (a :: rest) posted
          = (a.message :: (runResultsLoop (fun _ => true) rest (a.id :: posted)).1,
             (runResultsLoop (fun _ => true) rest (a.id :: posted)).2) by
          simp [runResultsLoop, ha]]
      by_cases hd : d a.message = true
      · rw [show runResultsLoop d (a :: rest) posted
            = (a.message :: (runResultsLoop d rest (a.id :: posted)).1,
               (runResultsLoop d rest (a.id :: posted)).2) by
            simp [runResultsLoop, ha, hd]] at hm
        rcases List.mem_cons.mp hm with h1 | h2
        · rw [h1]; exact List.mem_cons_self _ _
        · exact List.mem_cons_of_mem _ (ih (a.id :: posted) m h2)
      · have hd' : d a.message = false := Bool.eq_false_iff.mpr hd
        rw [show runResultsLoop d (a :: rest) posted = ([], Except.error ()) by
          simp [runResultsLoop, ha, hd']] at hm
        exact absurd hm (List.not_mem_nil m)

/-! ### Helper lemmas: pregame pass -/

theorem runPregameStep_pregame_mono (s : PreStep) (st : PState) (x : List Char)
    (hx : x ∈ st.pregame) : x ∈ (runPregameStep s st).2.pregame := by
  unfold runPregameStep
  cases s.nxt with
  | none => exact hx
  | some p =>
    by_cases h1 : PREGAME_WINDOW_HOURS * 3600 < p.1 - s.now
    · simp [h1]; exact hx
    · by_cases h2 : preId p.1 p.2 ∈ st.pregame
      · simp [h1, h2]; exact hx
      · by_cases h3 : s.deliverOk = true
        · simp [h1, h2, h3]
          exact Or.inr hx
        · have h3' : s.deliverOk = false := Bool.eq_false_iff.mpr h3
          simp [h1, h2, h3']
          exact hx

theorem stepFires_false_of_mem (pid : List Char) (s : PreStep) (st : PState)
    (hmem : pid ∈ st.pregame) : stepFires pid s st = false := by
  unfold stepFires runPregameStep
  cases hn : s.nxt with
  | none => rfl
  | some p =>
    by_cases h1 : PREGAME_WINDOW_HOURS * 3600 < p.1 - s.now
    · simp [h1]
    · by_cases h2 : preId p.1 p.2 ∈ st.pregame
      · simp [h1, h2]
      · by_cases h3 : s.deliverOk = true
        · simp [h1, h2, h3]
          intro heq
          rw [heq] at h2
          exact absurd hmem h2
        · have h3' : s.deliverOk = false := Bool.eq_false_iff.mpr h3
          simp [h1, h2, h3']

theorem stepFires_mem_after (pid : List Char) (s : PreStep) (st : PState)
    (hf : stepFires pid s st = true) : pid ∈ (runPregameStep s st).2.pregame := by
  unfold stepFires at hf
  unfold runPregameStep at hf ⊢
  cases hn : s.nxt with
  | none => rw [hn] at hf; simp at hf
  | some p =>
    rw [hn] at hf
    by_cases h1 : PREGAME_WINDOW_HOURS * 3600 < p.1 - s.now
    · simp [h1] at hf
    · by_cases h2 : preId p.1 p.2 ∈ st.pregame
      · simp [h1, h2] at hf
      · by_cases h3 : s.deliverOk = true
        · simp [h1, h2, h3] at hf
          simp [h1, h2, h3]
          exact Or.inl hf.symm
        · have h3' : s.deliverOk = false := Bool.eq_false_iff.mpr h3
          simp [h1, h2, h3'] at hf

theorem countFires_zero_of_mem (pid : List Char) :
    ∀ (steps : List PreStep) (st : PState), pid ∈ st.pregame →
      countFires pid steps st = 0 := by
  intro steps
  induction steps with
  | nil => intro st _; rfl
  | cons s rest ih =>
    intro st hmem
    unfold countFires
    rw [stepFires_false_of_mem pid s st hmem]
    simp
    exact ih _ (runPregameStep_pregame_mono s st pid hmem)

theorem countFires_le_one (pid : List Char) :
    ∀ (steps : List PreStep) (st : PState), countFires pid steps st ≤ 1 := by
  intro steps
  induction steps with
  | nil => intro st; exact Nat.zero_le 1
  | cons s rest ih =>
    intro st
    unfold countFires
    by_cases hf : stepFires pid s st = true
    · rw [hf]
      simp
      have := countFires_zero_of_mem pid rest _ (stepFires_mem_after pid s st hf)
      omega
    · have hf' : stepFires pid s st = false := Bool.eq_false_iff.mpr hf
      rw [hf']
      simp
      exact ih _

theorem filter_strip_map_norm :
    ∀ L : List (List Char),
      (L.filter (fun x => !(stripWS x).isEmpty)).map norm
        = (L.map norm).filter (fun l => !l.isEmpty) := by
  intro L
  induction L with
  | nil => rfl
  | cons x t ih =>
    have h1 : (stripWS x).isEmpty = (norm x).isEmpty := by
      apply Bool.eq_iff_iff.mpr
      rw [List.isEmpty_iff, List.isEmpty_iff]
      exact ⟨fun h => (norm_eq_nil_iff x).mpr h, fun h => (norm_eq_nil_iff x).mp h⟩
    simp only [List.filter_cons, List.map_cons, h1]
    cases hni : (norm x).isEmpty with
    | true => simp [hni, ih]
    | false => simp [hni, ih]

/-! ### The claims -/

/-- C1 counterexample: the program entry point contains no Daily Scoreboard
pass at all — it runs exactly two passes — so the claim that every invocation
additionally executes a Daily Scoreboard pass is false. -/
theorem main_has_no_scoreboard_pass :
    PassKind.scoreboard ∉ mainPasses ∧ mainPasses.length = 2 := by
  exact ⟨by decide, rfl⟩

/-- C1 (amended): every invocation runs exactly two detection passes —
Results and then Pregame — each gated by its own trigger condition, and no
Daily Scoreboard pass exists. -/
theorem main_runs_results_then_pregame :
    mainPasses = [PassKind.results, PassKind.pregame] ∧
    PassKind.scoreboard ∉ mainPasses := by
  exact ⟨rfl, by decide⟩

/-- C2 counterexample: the line "Capitalsville Arena" contains the tracked
name only as a substring of a longer word — the spec's case-sensitive exact
token rule rejects it — yet the code's scan treats it as an anchor, so the
claimed "if and only if" is false. -/
theorem anchor_accepts_substring_of_longer_word :
    isAnchor "Capitalsville Arena".data = true ∧
    specTokenAnchor "Capitalsville Arena".data = false := by
  exact ⟨by decide, by decide⟩

/-- C2 (amended): a normalized line is treated as an anchor if and only if it
contains "Capitals" as a case-sensitive contiguous substring — including
occurrences inside longer words. -/
theorem anchor_iff_substring (line : List Char) :
    isAnchor line = true ↔ ∃ l r, line = l ++ capitalsName ++ r :=
  containsSub_iff line capitalsName

/-- C3: for every window that yields a MatchResultEvent, the extracted
opponent is the first roster name other than "Capitals", in roster
declaration order, among those present in the window; in particular the
window "Capitals 3 - 2 Warriors" yields opponent "Warriors" with score
strings "3" and "2". -/
theorem result_opponent_first_in_roster_order :
    (∀ w ev, extractResultWindow w = some ev →
       some ev.opponent
         = (KNOWN_TEAMS.filter
             (fun t => (t != capitalsName) && tokenSearchBy icEq t none w)).head?)
    ∧ (extractResultWindow "Capitals 3 - 2 Warriors".data).map
        (fun e => (e.opponent, e.s1, e.s2))
      = some ("Warriors".data, "3".data, "2".data) := by
  constructor
  · intro w ev hev
    cases hs : scoreSearch w with
    | none => simp [extractResultWindow, hs] at hev
    | some p =>
      obtain ⟨s1, s2⟩ := p
      simp only [extractResultWindow, hs] at hev
      split at hev
      · split at hev
        · rename_i opp heq
          have hop : ev.opponent = opp := by
            have := (Option.some.inj hev).symm
            rw [this]
          rw [hop, ← heq, find_teams_in_text]
          exact find?_filter_eq_head? (fun team => tokenSearchBy icEq team none w)
            (fun t => t != capitalsName) KNOWN_TEAMS
        · exact absurd hev (by simp)
      · exact absurd hev (by simp)
  · rfl

/-- C3 witness: the general part applied to the concrete window
"Capitals 3 - 2 Warriors". -/
theorem result_opponent_first_in_roster_order_witness :
    some ("Warriors".data)
      = (KNOWN_TEAMS.filter
          (fun t => (t != capitalsName)
            && tokenSearchBy icEq t none "Capitals 3 - 2 Warriors".data)).head? :=
  result_opponent_first_in_roster_order.1 "Capitals 3 - 2 Warriors".data
    ⟨"Warriors".data, "3".data, "2".data,
      mkResultId "Warriors".data "3".data "2".data "Capitals 3 - 2 Warriors".data⟩
    (by rfl)

/-- C4: if delivery fails for a detected new result, the results pass raises,
the failing event's id is not persisted (so a rerun with a working transport
re-posts the event), and generally an id is persisted only when it was
already present or its event's delivery succeeded. -/
theorem delivery_failure_id_not_recorded
    (deliver : List Char → Bool) (rs : List RItem) (posted : List (List Char)) (r : RItem)
    (hnd : (rs.map RItem.id).Nodup) (hr : r ∈ rs)
    (hfail : deliver r.message = false) (hnp : r.id ∉ posted) :
    (runResultsLoop deliver rs posted).2 = Except.error () ∧
    r.id ∉ persistedPosted posted (runResultsLoop deliver rs posted).2 ∧
    (∀ (d2 : List Char → Bool) (rs2 : List RItem) (posted2 p : List (List Char))
       (i : List Char),
       (runResultsLoop d2 rs2 posted2).2 = Except.ok p → i ∈ p →
       i ∈ posted2 ∨ ∃ r2 ∈ rs2, r2.id = i ∧ d2 r2.message = true) ∧
    r.message ∈ (runResultsLoop (fun _ => true) rs
        (persistedPosted posted (runResultsLoop deliver rs posted).2)).1 := by
  have herr := runResultsLoop_error_of_failing deliver rs posted r hnd hr hfail hnp
  refine ⟨herr, ?_, ?_, ?_⟩
  · rw [herr]
    exact hnp
  · intro d2 rs2 posted2 p i hok hip
    exact runResultsLoop_ok_mem d2 rs2 posted2 p i hok hip
  · rw [herr]
    exact runResultsLoop_allok_delivers (fun _ => true) (fun _ => rfl) rs posted r hnd hr hnp

/-- C4 witness: one undeliverable result on an empty posted set. -/
theorem delivery_failure_id_not_recorded_witness :
    (runResultsLoop (fun _ => false) [RItem.mk "i1".data "m1".data] []).2
      = Except.error () ∧
    "i1".data ∉ persistedPosted []
      (runResultsLoop (fun _ => false) [RItem.mk "i1".data "m1".data] []).2 := by
  have h := delivery_failure_id_not_recorded (fun _ => false)
    [RItem.mk "i1".data "m1".data] [] (RItem.mk "i1".data "m1".data)
    (by decide) (by decide) (by rfl) (by simp)
  exact ⟨h.1, h.2.1⟩

/-- C5: across any sequence of pregame invocations, at most one notification
is posted per fixture id (kickoff instant, opponent); in particular an
invocation 23.5 hours before kickoff fires and a second invocation one hour
later does not, giving exactly one notification for that fixture. -/
theorem pregame_at_most_once_per_fixture :
    (∀ (pid : List Char) (steps : List PreStep) (st : PState),
       countFires pid steps st ≤ 1) ∧
    countFires (preId 172800 "Tigers".data)
      [⟨some (172800, "Tigers".data), 88200, true⟩,
       ⟨some (172800, "Tigers".data), 91800, true⟩] ⟨[], []⟩ = 1 := by
  exact ⟨fun pid steps st => countFires_le_one pid steps st, by decide⟩

/-- C6: on any window text the Result extractor (which requires a score
token) and the Fixture extractor (which requires its absence) never both
accept. -/
theorem result_and_fixture_mutually_exclusive (isFuture : DT → Bool) (w : List Char) :
    ((extractResultWindow w).isSome && (fixtureWindowCandidate isFuture w).isSome)
      = false := by
  cases hs : scoreSearch w with
  | none =>
    have h1 : extractResultWindow w = none := by simp [extractResultWindow, hs]
    rw [h1]
    rfl
  | some p =>
    have h2 : fixtureWindowCandidate isFuture w = none := by
      simp [fixtureWindowCandidate, hs]
    rw [h2]
    simp

/-- C7: a missing state file and an unreadable one both load as the all-empty
state rather than failing, and a first run that detects one result with a
working transport posts its message and records exactly its id. -/
theorem missing_state_empty_and_first_run_posts :
    load_state StateFileRead.absent = ⟨[], []⟩ ∧
    load_state StateFileRead.unreadable = ⟨[], []⟩ ∧
    (∀ (r : RItem) (deliver : List Char → Bool), deliver r.message = true →
       runResultsLoop deliver [r] (load_state StateFileRead.absent).posted
         = ([r.message], Except.ok [r.id])) := by
  refine ⟨rfl, rfl, ?_⟩
  intro r deliver hd
  show runResultsLoop deliver [r] [] = _
  simp [runResultsLoop, hd]

/-- C7 witness: a concrete first run from the absent-file state. -/
theorem missing_state_empty_and_first_run_posts_witness :
    runResultsLoop (fun _ => true) [RItem.mk "i1".data "m1".data]
        (load_state StateFileRead.absent).posted
      = (["m1".data], Except.ok ["i1".data]) :=
  missing_state_empty_and_first_run_posts.2.2 (RItem.mk "i1".data "m1".data)
    (fun _ => true) rfl

/-- C8: the TextNormalizer output contains no empty line and no line with two
adjacent whitespace characters, every line is trimmed at both ends, and the
output is exactly the input lines normalized in order with only the
normalized-to-empty lines dropped. -/
theorem normalize_lines_clean (text : List Char) :
    (∀ l ∈ normalizeLines text,
       l ≠ [] ∧ hasDoubleSpace l = false ∧
       (∀ c, l.head? = some c → pySpace c = false) ∧
       (∀ c, l.getLast? = some c → pySpace c = false)) ∧
    normalizeLines text = ((splitOnNL text).map norm).filter (fun l => !l.isEmpty) := by
  constructor
  · intro l hl
    rcases List.mem_map.mp hl with ⟨x, hx, hnx⟩
    have hcond := (List.mem_filter.mp hx).2
    have hstrip : stripWS x ≠ [] := by
      intro hnil
      rw [hnil] at hcond
      simp at hcond
    refine ⟨?_, ?_, ?_, ?_⟩
    · rw [← hnx]
      intro hnil
      exact hstrip ((norm_eq_nil_iff x).mp hnil)
    · rw [← hnx]
      exact hasDoubleSpace_norm x
    · intro c hc
      rw [← hnx] at hc
      exact norm_head_nonspace x c hc
    · intro c hc
      rw [← hnx] at hc
      exact norm_getLast_nonspace x c hc
  · exact filter_strip_map_norm (splitOnNL text)

/-- C8 witness: the theorem applied to a concrete raw text. -/
theorem normalize_lines_clean_witness :
    "Hello world".data ≠ [] ∧ hasDoubleSpace "Hello world".data = false ∧
    pySpace 'H' = false := by
  have h := (normalize_lines_clean "  Hello   world \x0a\x0a  \x0a x".data).1
    "Hello world".data (by decide)
  exact ⟨h.1, h.2.1, h.2.2.1 'H' (by decide)⟩

/-- C9: if the results pass raises partway through posting, nothing at all is
persisted — the saved id set is exactly the previous one, so even results
delivered earlier in the same run stay unrecorded — and every message that
was delivered before the failure is delivered again by a rerun with a
working transport. -/
theorem partial_failure_persists_nothing
    (deliver : List Char → Bool) (rs : List RItem) (posted : List (List Char))
    (herr : (runResultsLoop deliver rs posted).2 = Except.error ()) :
    persistedPosted posted (runResultsLoop deliver rs posted).2 = posted ∧
    ∀ m ∈ (runResultsLoop deliver rs posted).1,
      m ∈ (runResultsLoop (fun _ => true) rs posted).1 := by
  constructor
  · rw [herr]
    rfl
  · intro m hm
    exact runResultsLoop_msgs_subset deliver rs posted m hm

/-- C9 witness: the first of two results is delivered, the second raises;
nothing is persisted and the first message is re-delivered on a rerun. -/
theorem partial_failure_persists_nothing_witness :
    persistedPosted ["x".data]
      (runResultsLoop (fun m => m == "ma".data)
        [RItem.mk "a".data "ma".data, RItem.mk "b".data "mb".data] ["x".data]).2
      = ["x".data] ∧
    "ma".data ∈ (runResultsLoop (fun _ => true)
        [RItem.mk "a".data "ma".data, RItem.mk "b".data "mb".data] ["x".data]).1 := by
  have h := partial_failure_persists_nothing (fun m => m == "ma".data)
    [RItem.mk "a".data "ma".data, RItem.mk "b".data "mb".data] ["x".data] (by rfl)
  exact ⟨h.1, h.2 "ma".data (by decide)⟩

/-- C10: the pregame scan reads only the first 10000 characters of the page
text, taken after the "Upcoming Games" marker when present: the focused text
never exceeds 10000 characters, the scan outcome depends only on the focused
text, and content appended beyond a marker-free 10000-character page never
changes the outcome — a fixture written only there is never detected. -/
theorem pregame_scan_bounded_cutoff (raw : List Char) :
    (pregameText raw).length ≤ 10000 ∧
    (∀ (raw2 : List Char) (isFuture : DT → Bool), pregameText raw = pregameText raw2 →
       scrape_next_capitals_game isFuture raw = scrape_next_capitals_game isFuture raw2) ∧
    (∀ (extra : List Char) (isFuture : DT → Bool), 10000 ≤ raw.length →
       containsSub upcomingMarker (raw ++ extra) = false →
       scrape_next_capitals_game isFuture (raw ++ extra)
         = scrape_next_capitals_game isFuture raw) := by
  refine ⟨?_, ?_, ?_⟩
  · unfold pregameText
    rw [List.length_take]
    exact min_le_left _ _
  · intro raw2 isFuture h
    unfold scrape_next_capitals_game
    rw [h]
  · intro extra isFuture hlen hnc
    have hc1 : containsSub upcomingMarker raw = false := by
      cases hb : containsSub upcomingMarker raw with
      | false => rfl
      | true =>
        have h2 := containsSub_append_of upcomingMarker raw extra hb
        rw [hnc] at h2
        exact absurd h2 (by simp)
    have hpt : pregameText (raw ++ extra) = pregameText raw := by
      unfold pregameText
      rw [hnc, hc1]
      simp only [Bool.false_eq_true, if_false]
      rw [List.take_append_eq_append_take, Nat.sub_eq_zero_of_le hlen]
      simp
    unfold scrape_next_capitals_game
    rw [hpt]

/-- C10 witness: a 10000-character marker-free page with a Capitals fixture
appended beyond the cutoff scans identically to the bare page. -/
theorem pregame_scan_bounded_cutoff_witness :
    scrape_next_capitals_game (fun _ => true)
        (List.replicate 10000 'a' ++ "Capitals Tigers 27 Dec 2099 19:30".data)
      = scrape_next_capitals_game (fun _ => true) (List.replicate 10000 'a') := by
  apply (pregame_scan_bounded_cutoff (List.replicate 10000 'a')).2.2
  · rw [List.length_replicate]
  · cases hb : containsSub upcomingMarker
        (List.replicate 10000 'a' ++ "Capitals Tigers 27 Dec 2099 19:30".data) with
    | false => rfl
    | true =>
      exfalso
      rcases (containsSub_iff _ upcomingMarker).mp hb with ⟨l, r, hlr⟩
      have hU : ('U' : Char)
          ∈ List.replicate 10000 'a' ++ "Capitals Tigers 27 Dec 2099 19:30".data := by
        rw [hlr]
        exact List.mem_append.mpr (Or.inl (List.mem_append.mpr (Or.inr (by decide))))
      rcases List.mem_append.mp hU with h1 | h2
      · exact absurd (List.mem_replicate.mp h1).2 (by decide)
      · exact absurd h2 (by decide)

end CapsBot
